import Mathlib

/-!
Verification of the qcc repository: the Tensor base class of
src/lib/tensor.py and the Bernstein-Vazirani example of src/bernstein.py.

Embedding conventions.

The Tensor class wraps a numpy array of dtype complex64.  This development
models the floating-point values as exact rationals and restricts to the
real slice of the complex entries (complex conjugation is then the
identity); every matrix and state built by this repository is real.  A
numpy array of shape (r, c) is modelled as a structure carrying the two
shape fields together with a total entry function on pairs of naturals;
indices at or beyond the bounds are junk, never inspected by any operation
below, exactly as the storage of a numpy array ends at its shape.

Fallible numpy operations (matmul on mismatched inner dimensions, allclose
on non-broadcastable shapes) raise; a raise is modelled as none.
Broadcasting of size-one axes in np.allclose is not modelled: shapes must
match exactly.  The only call site that can reach allclose with unequal
shapes is Tensor.is_unitary on a non-square input, and there the two
shapes disagree in a dimension strictly greater than one whenever both
matrix dimensions exceed one, so numpy raises there as well.
-/

namespace Qcc

/-- Absolute tolerance of Tensor.is_close: the atol=1e-6 argument that
tensor.py passes to np.allclose. -/
def atol : ℚ := 1 / 1000000

/-- Relative tolerance of Tensor.is_close: numpy's default rtol=1e-5,
which np.allclose keeps when only atol is overridden. -/
def rtol : ℚ := 1 / 100000

/-- A 2-D numpy array of complex64 values, restricted to its real slice,
with float values idealised as rationals. -/
structure Tensor where
  rows : ℕ
  cols : ℕ
  entry : ℕ → ℕ → ℚ

namespace Tensor

/-- np.conj(self.transpose()): transposition composed with complex
conjugation; conjugation is the identity on the real slice. -/
def conjT (a : Tensor) : Tensor := ⟨a.cols, a.rows, fun i j => a.entry j i⟩

/-- np.eye(n). -/
def eye (n : ℕ) : Tensor := ⟨n, n, fun i j => if i = j then 1 else 0⟩

/-- np.matmul: defined when the inner dimensions agree, otherwise numpy
raises a ValueError (modelled as none). -/
def matmul (a b : Tensor) : Option Tensor :=
  if a.cols = b.rows then
    some ⟨a.rows, b.cols,
      fun i j => ∑ k ∈ Finset.range a.cols, a.entry i k * b.entry k j⟩
  else none

/-- Tensor.is_close: np.allclose(self, arg, atol=1e-6), entrywise
abs(a - b) <= atol + rtol * abs(b) with numpy's default rtol kept.
Mismatched (non-broadcastable) shapes raise: none. -/
def is_close (a b : Tensor) : Option Bool :=
  if a.rows = b.rows ∧ a.cols = b.cols then
    some (decide (∀ i < a.rows, ∀ j < a.cols,
      |a.entry i j - b.entry i j| ≤ atol + rtol * |b.entry i j|))
  else none

/-- Tensor.is_hermitian: False for non-square input, else the tolerance
comparison of the matrix with its conjugate transpose.  The source also
returns False when the array is not 2-D; the embedding's Tensor is always
2-D, so that guard is identically passed. -/
def is_hermitian (a : Tensor) : Bool :=
  if a.rows = a.cols then (a.is_close a.conjT).getD false else false

/-- Tensor.is_unitary: compares conj(transpose(self)) @ self against
np.eye(self.shape[0]) under is_close.  There is no shape guard: on an
(m, n) input with m and n unequal the product is (n, n) while the
identity is (m, m), and the comparison raises (none). -/
def is_unitary (a : Tensor) : Option Bool :=
  (matmul a.conjT a).bind (fun p => p.is_close (eye a.rows))

/-- np.trace: the sum of the main diagonal, of length min(rows, cols). -/
def trace (a : Tensor) : ℚ :=
  ∑ i ∈ Finset.range (min a.rows a.cols), a.entry i i

/-- Tensor.is_density: not Hermitian rejects; then the literal comparison
np.trace(self) - 1.0 > 1e-6 rejects; everything else is accepted.  Note
the comparison only rejects traces strictly above 1 by more than the
tolerance, never traces below 1. -/
def is_density (a : Tensor) : Bool :=
  if a.is_hermitian = false then false
  else if trace a - 1 > 1 / 1000000 then false
  else true

/-- Tensor.is_pure: raises a ValueError (none) unless the input is a
density matrix; otherwise np.allclose(np.real(np.trace(self @ self)), 1.0)
with numpy's default tolerances atol=1e-8 and rtol=1e-5; np.real is the
identity on the real slice. -/
def is_pure (a : Tensor) : Option Bool :=
  if a.is_density then
    (matmul a a).map
      (fun p => decide (|trace p - 1| ≤ 1 / 100000000 + rtol * |(1 : ℚ)|))
  else none

/-- Tensor.is_permutation: the array is 2-D (always, in this embedding)
and square, every column sum (axis 0) and every row sum (axis 1) equals
exactly 1, and every element equals exactly 1 or exactly 0.  The source
wraps the boolean in int(); truthiness is modelled by Bool. -/
def is_permutation (a : Tensor) : Bool :=
  decide (a.rows = a.cols) &&
  decide (∀ j < a.cols, (∑ i ∈ Finset.range a.rows, a.entry i j) = 1) &&
  decide (∀ i < a.rows, (∑ j ∈ Finset.range a.cols, a.entry i j) = 1) &&
  decide (∀ i < a.rows, ∀ j < a.cols, a.entry i j = 1 ∨ a.entry i j = 0)

/-- Tensor.kron (the * operator): np.kron.  For 2-D inputs with second
factor of shape (p, q), entry (r, c) of the product is
A[r / p, c / q] * B[r % p, c % q]. -/
def kron (a b : Tensor) : Tensor :=
  ⟨a.rows * b.rows, a.cols * b.cols,
   fun i j => a.entry (i / b.rows) (j / b.cols) * b.entry (i % b.rows) (j % b.cols)⟩

/-- A Python value returned by Tensor.pow: either the bare float 1.0 from
the n == 0 shortcut, or a Tensor. -/
inductive PyVal where
  | scalar : ℚ → PyVal
  | tensor : Tensor → PyVal

/-- The loop of Tensor.pow: t = self, then range(n - 1) iterations of
t = np.kron(t, self); powAux a k is t after k iterations. -/
def powAux (a : Tensor) : ℕ → Tensor
  | 0 => a
  | k + 1 => kron (powAux a k) a

/-- Tensor.pow: n == 0 returns the bare Python float 1.0; any other n runs
the kron loop range(n - 1) times, which is max(n - 1, 0) iterations - in
particular zero iterations for every negative n, which therefore returns
the input tensor itself without raising. -/
def pow (a : Tensor) (n : ℤ) : PyVal :=
  if n = 0 then PyVal.scalar 1 else PyVal.tensor (powAux a (n - 1).toNat)

/-- The k-fold Kronecker self-product in the spec's words: selfKron a k is
the product of k + 1 copies of a, associated to the left. -/
def selfKron (a : Tensor) : ℕ → Tensor
  | 0 => a
  | k + 1 => kron (selfKron a k) a

/-- A Tensor is exactly unitary: it is square and the conjugate transpose
times the matrix is exactly the identity matrix, with no tolerance. -/
def ExactUnitary (a : Tensor) : Prop :=
  a.rows = a.cols ∧ ∀ i < a.cols, ∀ j < a.cols,
    (∑ k ∈ Finset.range a.rows, a.entry k i * a.entry k j) =
      if i = j then 1 else 0

/-- A Tensor is the N-by-N permutation-like matrix of the basis map f:
column c carries a single 1 in row f c.  The map is required to send the
index range below N into itself injectively. -/
def IsPermOn (N : ℕ) (f : ℕ → ℕ) (t : Tensor) : Prop :=
  t.rows = N ∧ t.cols = N ∧ (∀ x < N, f x < N) ∧
  (∀ x < N, ∀ y < N, f x = f y → x = y) ∧
  ∀ r < N, ∀ c < N, t.entry r c = if r = f c then 1 else 0

end Tensor

/-!
The Bernstein-Vazirani example, src/bernstein.py.

run_experiment(nbits) draws c = make_c(nbits - 1), builds u = make_u(nbits,
c), prepares psi = state.zeros(nbits - 1) * state.ones(1), applies
Hadamard(nbits), u, Hadamard(nbits) and hands psi to check_result.  The
gate library src/lib/ops.py and the state engine src/lib/state.py are not
among the sources, so the gates and the state/probability interface are
modelled from spec sections 4.2 and 6 as declared below.  Throughout,
nbits = m + 1 and a basis configuration is a function Fin (m+1) → ZMod 2,
qubit 0 first, exactly the bit tuples that helper.bitprod enumerates.

States carry scaled integer amplitudes: the n-qubit Hadamard matrix has
entries 2^(-n/2) * (-1)^(x.y), and each application below drops the scalar
2^(-n/2), keeping the integer Walsh transform.  After the two Hadamard
layers of run_experiment the physical amplitude is the stored integer
divided by 2^(m+1), which is how probOf recovers the probability. -/

/-- make_c from src/bernstein.py: constant_c = [0] * nbits; indices
0 .. nbits-2 are filled with int(np.random.random() < 0.5), one fresh draw
each, abstracted as a Bool stream indexed by position; index nbits-1 is
never written and stays 0. -/
def make_c (nbits : ℕ) (draws : Fin nbits → Bool) : Fin nbits → ZMod 2 :=
  fun i => if i.val < nbits - 1 then (if draws i then 1 else 0) else 0

/-- Modelled from the spec: the basis permutation of
ops.Identity(i) * ops.Cnot(i, n-1), the controlled-NOT with control on
qubit i and target on qubit n-1, identity-padded to the full n-qubit space
(src/lib/ops.py is missing).  qcc orders basis indices with qubit 0 as the
most significant bit, so qubit i is bit n-1-i of the index and the target
qubit n-1 is bit 0: the map flips bit 0 of x exactly when bit n-1-i of x
is set. -/
def cnotPerm (n i x : ℕ) : ℕ := if x.testBit (n - 1 - i) then x ^^^ 1 else x

/-- Modelled from the spec: the matrix of the padded controlled-NOT above,
the 2^n-dimensional permutation matrix with column c carrying its 1 in
row cnotPerm n i c. -/
def cnotFull (n i : ℕ) : Tensor :=
  ⟨2 ^ n, 2 ^ n, fun r c => if r = cnotPerm n i c then 1 else 0⟩

/-- make_u from src/bernstein.py: op = ops.Identity(nbits), modelled from
the spec as eye(2^nbits); then for idx in range(nbits - 1), whenever
constant_c[idx] is truthy (the entries lie in {0, 1}, so truthy means 1),
op = (ops.Identity(idx) * ops.Cnot(idx, nbits-1)) @ op.  The secret is
passed as a function on ℕ of which only indices below nbits - 1 are ever
read, matching the length-(nbits-1) tuple of the source. -/
def make_u (nbits : ℕ) (c : ℕ → ZMod 2) : Option Tensor :=
  (List.range (nbits - 1)).foldl
    (fun acc idx =>
      if c idx = 1 then acc.bind (fun op => Tensor.matmul (cnotFull nbits idx) op)
      else acc)
    (some (Tensor.eye (2 ^ nbits)))

/-- The character of ZMod 2 in the integers: (-1) to the bit. -/
def chi (z : ZMod 2) : ℤ := if z = 0 then 1 else -1

/-- The mod-2 dot product of two bit tuples. -/
def bdot {m : ℕ} (x y : Fin m → ZMod 2) : ZMod 2 := ∑ i, x i * y i

/-- Modelled from the spec: ops.Hadamard(m) applied to an m-qubit state
(src/lib/ops.py is missing).  The matrix entry at (x, y) is
2^(-m/2) * (-1)^(x.y); the scalar 2^(-m/2) is dropped here and restored
by probOf, keeping amplitudes integral. -/
def hadamardW {m : ℕ} (ps : (Fin m → ZMod 2) → ℤ) : (Fin m → ZMod 2) → ℤ :=
  fun x => ∑ y, chi (bdot x y) * ps y

/-- Modelled from the spec: state.zeros(m) * state.ones(1)
(src/lib/state.py is missing): the basis state whose first m qubits are 0
and whose last qubit is 1, as an amplitude vector. -/
def initAmp (m : ℕ) : (Fin (m + 1) → ZMod 2) → ℤ :=
  fun x => if x = Fin.snoc (fun _ => (0 : ZMod 2)) 1 then 1 else 0

/-- The basis map of the oracle make_u builds: each secret bit c i that is
set contributes a controlled-NOT from qubit i to the last qubit, and the
composite flips the last qubit by the mod-2 dot product of c with the
first m bits.  The map is an involution. -/
def bvFlip {m : ℕ} (c : Fin m → ZMod 2) (x : Fin (m + 1) → ZMod 2) :
    Fin (m + 1) → ZMod 2 :=
  Function.update x (Fin.last m)
    (x (Fin.last m) + ∑ i : Fin m, c i * x i.castSucc)

/-- Modelled from the spec: applying the oracle operator of make_u to an
amplitude vector.  A permutation matrix whose basis map is the involution
bvFlip acts on amplitude vectors by composition with that map. -/
def oracleAmp {m : ℕ} (c : Fin m → ZMod 2)
    (ps : (Fin (m + 1) → ZMod 2) → ℤ) : (Fin (m + 1) → ZMod 2) → ℤ :=
  fun x => ps (bvFlip c x)

/-- run_experiment's state pipeline from src/bernstein.py for
nbits = m + 1 qubits and secret c, in the scaled integer representation:
psi = zeros(m) * ones(1); psi = Hadamard(m+1)(psi); psi = u(psi);
psi = Hadamard(m+1)(psi). -/
def finalAmp (m : ℕ) (c : Fin m → ZMod 2) : (Fin (m + 1) → ZMod 2) → ℤ :=
  hadamardW (oracleAmp c (hadamardW (initAmp m)))

/-- psi.prob(*bits) of the missing src/lib/state.py, modelled from the
spec: the squared magnitude of the amplitude at the given basis
configuration.  The two scaled Hadamard layers dropped a factor 2^(-(m+1)/2)
each, so the physical amplitude is the stored integer divided by 2^(m+1). -/
def probOf (m : ℕ) (c : Fin m → ZMod 2) (x : Fin (m + 1) → ZMod 2) : ℚ :=
  ((finalAmp m c x : ℚ) / 2 ^ (m + 1)) ^ 2

/-- The assertion of check_result from src/bernstein.py, for nbits = m + 1
and secret c: every basis configuration whose probability exceeds 0.1 has
its first m bits (bits[:-1]) equal to c. -/
def checkResultHolds (m : ℕ) (c : Fin m → ZMod 2) : Prop :=
  ∀ x : Fin (m + 1) → ZMod 2,
    probOf m c x > 1 / 10 → ∀ i : Fin m, x i.castSucc = c i

/-- The 1-by-1 zero matrix: Hermitian with trace 0. -/
def traceZeroEx : Tensor := ⟨1, 1, fun _ _ => 0⟩

/-- The 1-by-1 matrix holding 1: a pure density matrix. -/
def pureEx : Tensor := ⟨1, 1, fun _ _ => 1⟩

/-- A 1-by-1 matrix within the unitarity tolerance of unitary but not
exactly unitary: its entry is 1 + 5e-6. -/
def uEx : Tensor := ⟨1, 1, fun _ _ => 1 + 5 / 1000000⟩

/-- A 1-by-1 matrix holding 2, used to exercise Tensor.pow. -/
def powEx : Tensor := ⟨1, 1, fun _ _ => 2⟩

/-- A 2-by-3 tensor of zeros: 2-D, non-square, both dimensions above 1. -/
def badShapeEx : Tensor := ⟨2, 3, fun _ _ => 0⟩

/-! Helper lemmas. -/

theorem hermitian_square {a : Tensor} (h : a.is_hermitian = true) :
    a.rows = a.cols := by
  unfold Tensor.is_hermitian at h
  by_cases hc : a.rows = a.cols
  · exact hc
  · rw [if_neg hc] at h
    exact absurd h (by simp)

theorem density_hermitian {a : Tensor} (h : a.is_density = true) :
    a.is_hermitian = true := by
  unfold Tensor.is_density at h
  by_cases hh : a.is_hermitian = false
  · rw [if_pos hh] at h
    exact absurd h (by simp)
  · simpa using hh

theorem matmul_self_of_density {a : Tensor} (h : a.is_density = true) :
    Tensor.matmul a a =
      some ⟨a.rows, a.cols,
        fun i j => ∑ k ∈ Finset.range a.cols, a.entry i k * a.entry k j⟩ := by
  have hsq := hermitian_square (density_hermitian h)
  unfold Tensor.matmul
  rw [if_pos hsq.symm]

theorem powAux_eq_selfKron (a : Tensor) :
    ∀ k, Tensor.powAux a k = Tensor.selfKron a k
  | 0 => rfl
  | k + 1 => by
    rw [Tensor.powAux, Tensor.selfKron, powAux_eq_selfKron a k]

/-! Claim theorems for tensor.py predicates. -/

unseal Rat.add Rat.mul Rat.inv Rat.sub Rat.ofScientific in
/-- C4: for every Tensor a, is_density(a) is true exactly when a is
Hermitian and trace(a) - 1.0 is not greater than 1e-6; the check is
asymmetric, so the Hermitian 1-by-1 zero matrix, whose trace is 0, is
still classified as a density matrix. -/
theorem is_density_characterisation :
    (∀ a : Tensor, a.is_density = true ↔
      (a.is_hermitian = true ∧ ¬(a.trace - 1 > 1 / 1000000))) ∧
    traceZeroEx.is_density = true := by
  constructor
  · intro a
    unfold Tensor.is_density
    by_cases h1 : a.is_hermitian = true
    · by_cases h2 : a.trace - 1 > 1 / 1000000 <;> simp [h1, h2]
    · have h1' : a.is_hermitian = false := by
        cases h : a.is_hermitian
        · rfl
        · exact absurd h h1
      simp [h1']
  · decide

/-- C4 witness: the characterisation applied to the 1-by-1 zero matrix,
which is Hermitian with trace 0 and accepted as a density matrix. -/
theorem is_density_characterisation_witness :
    traceZeroEx.is_density = true ↔
      (traceZeroEx.is_hermitian = true ∧
       ¬(traceZeroEx.trace - 1 > 1 / 1000000)) :=
  is_density_characterisation.1 traceZeroEx

/-- C5: is_pure raises a ValueError (none) exactly when the input is not a
density matrix, and on a density matrix returns, without raising, whether
the (real) trace of a @ a is within numpy's default tolerance of 1.  All
operations of the embedding are pure functions, so the input tensor is
unchanged in either case. -/
theorem is_pure_characterisation (a : Tensor) :
    (a.is_pure = none ↔ a.is_density = false) ∧
    (a.is_density = true →
      ∃ p, Tensor.matmul a a = some p ∧
        a.is_pure =
          some (decide (|p.trace - 1| ≤ 1 / 100000000 + rtol * |(1 : ℚ)|))) := by
  constructor
  · constructor
    · intro h
      by_contra hd
      have hd' : a.is_density = true := by
        cases hmm : a.is_density
        · exact absurd hmm hd
        · rfl
      have hm := matmul_self_of_density hd'
      unfold Tensor.is_pure at h
      rw [if_pos hd', hm] at h
      exact absurd h (by simp)
    · intro h
      unfold Tensor.is_pure
      rw [if_neg (by simp [h])]
  · intro hd
    have hm := matmul_self_of_density hd
    refine ⟨_, hm, ?_⟩
    unfold Tensor.is_pure
    rw [if_pos hd, hm]
    rfl

unseal Rat.add Rat.mul Rat.inv Rat.sub Rat.ofScientific in
/-- C5 witness: the 1-by-1 matrix holding 1 is a density matrix, is_pure
does not raise on it, and it is classified as pure. -/
theorem is_pure_characterisation_witness :
    pureEx.is_density = true ∧
    ∃ p, Tensor.matmul pureEx pureEx = some p ∧
      pureEx.is_pure =
        some (decide (|p.trace - 1| ≤ 1 / 100000000 + rtol * |(1 : ℚ)|)) :=
  ⟨by decide, (is_pure_characterisation pureEx).2 (by decide)⟩

/-- C7: is_permutation is true exactly when the tensor is 2-dimensional
(always, in this embedding) and square, every column and row sums to
exactly 1, and every element is exactly 1 or exactly 0, with no
tolerance anywhere. -/
theorem is_permutation_characterisation (a : Tensor) :
    a.is_permutation = true ↔
      (a.rows = a.cols ∧
       (∀ j < a.cols, (∑ i ∈ Finset.range a.rows, a.entry i j) = 1) ∧
       (∀ i < a.rows, (∑ j ∈ Finset.range a.cols, a.entry i j) = 1) ∧
       (∀ i < a.rows, ∀ j < a.cols, a.entry i j = 1 ∨ a.entry i j = 0)) := by
  simp only [Tensor.is_permutation, Bool.and_eq_true, decide_eq_true_eq,
    and_assoc]

unseal Rat.add Rat.mul Rat.inv Rat.sub Rat.ofScientific in
/-- C7 witness: the characterisation classifies the 2-by-2 identity as a
permutation matrix. -/
theorem is_permutation_characterisation_witness :
    (Tensor.eye 2).is_permutation = true :=
  (is_permutation_characterisation (Tensor.eye 2)).mpr (by decide)

/-- C8: pow(a, 0) is the bare Python scalar 1.0, not a Tensor, and for
every integer k at least 1, pow(a, k) is the k-fold left-associated
Kronecker self-product of a (so pow(a, 1) is a itself). -/
theorem pow_zero_scalar_pow_pos_kron (a : Tensor) :
    Tensor.pow a 0 = Tensor.PyVal.scalar 1 ∧
    ∀ k : ℕ, Tensor.pow a ((k : ℤ) + 1) = Tensor.PyVal.tensor (Tensor.selfKron a k) := by
  constructor
  · rfl
  · intro k
    unfold Tensor.pow
    rw [if_neg (by omega : ¬((k : ℤ) + 1 = 0))]
    rw [add_sub_cancel_right, Int.toNat_natCast, powAux_eq_selfKron]

/-- C9: for every negative integer k, pow(a, k) does not raise: the kron
loop body runs range(k - 1), which is empty, and the call returns the
tensor a itself, the same value as pow(a, 1). -/
theorem pow_negative_returns_self (a : Tensor) :
    Tensor.pow a 1 = Tensor.PyVal.tensor a ∧
    ∀ k : ℤ, k < 0 → Tensor.pow a k = Tensor.PyVal.tensor a := by
  constructor
  · rfl
  · intro k hk
    unfold Tensor.pow
    rw [if_neg (by omega : ¬(k = 0))]
    rw [Int.toNat_eq_zero.mpr (by omega : k - 1 ≤ 0)]
    rfl

/-- C9 witness: pow at the concrete exponent -1 returns the 1-by-1 input
tensor unchanged. -/
theorem pow_negative_returns_self_witness :
    (-1 : ℤ) < 0 ∧ Tensor.pow powEx (-1) = Tensor.PyVal.tensor powEx :=
  ⟨by decide, (pow_negative_returns_self powEx).2 (-1) (by decide)⟩

/-- C10: on the 2-by-3 zero tensor (2-D, non-square, both dimensions above
1) is_hermitian returns false through its shape guard, while is_unitary,
which has no shape guard, reaches the comparison of the 3-by-3 product
with the 2-by-2 identity and raises (none) instead of returning false. -/
theorem is_unitary_shape_mismatch_raises :
    badShapeEx.is_hermitian = false ∧ badShapeEx.is_unitary = none := by
  decide

/-! The Bernstein-Vazirani correctness argument (C1). -/

theorem chi_add (u v : ZMod 2) : chi (u + v) = chi u * chi v := by
  revert u v
  decide

theorem bdot_add_left {m : ℕ} (x w y : Fin m → ZMod 2) :
    bdot (x + w) y = bdot x y + bdot w y := by
  unfold bdot
  rw [← Finset.sum_add_distrib]
  refine Finset.sum_congr rfl (fun i _ => ?_)
  show (x i + w i) * y i = x i * y i + w i * y i
  ring

theorem sum_chi_bdot {m : ℕ} (a : Fin m → ZMod 2) :
    (∑ y : Fin m → ZMod 2, chi (bdot a y)) = if a = 0 then 2 ^ m else 0 := by
  induction m with
  | zero =>
    have h0 : a = 0 := funext (fun i => i.elim0)
    subst h0
    rw [if_pos rfl, pow_zero, Fintype.sum_unique]
    simp [bdot, chi]
  | succ k ih =>
    rw [← Equiv.sum_comp (Fin.consEquiv (fun _ : Fin (k + 1) => ZMod 2))
      (fun y => chi (bdot a y))]
    have he : ∀ p : ZMod 2 × (Fin k → ZMod 2),
        bdot a (Fin.consEquiv (fun _ : Fin (k + 1) => ZMod 2) p) =
          a 0 * p.1 + bdot (fun i => a i.succ) p.2 := by
      intro p
      show bdot a (Fin.cons p.1 p.2) = _
      unfold bdot
      rw [Fin.sum_univ_succ]
      simp only [Fin.cons_zero, Fin.cons_succ]
    simp_rw [he, chi_add]
    rw [Fintype.sum_prod_type]
    rw [← Fintype.sum_mul_sum (fun y0 : ZMod 2 => chi (a 0 * y0))
      (fun yt : Fin k → ZMod 2 => chi (bdot (fun i => a i.succ) yt))]
    rw [ih (fun i => a i.succ)]
    have hbase : ∀ z : ZMod 2,
        (∑ y0 : ZMod 2, chi (z * y0)) = if z = 0 then 2 else 0 := by
      decide
    rw [hbase (a 0)]
    have hiff : a = 0 ↔ a 0 = 0 ∧ (fun i : Fin k => a i.succ) = 0 := by
      constructor
      · intro h
        subst h
        exact ⟨rfl, rfl⟩
      · rintro ⟨h0, hs⟩
        funext i
        refine Fin.cases ?_ ?_ i
        · exact h0
        · intro i2
          exact congrFun hs i2
    by_cases h : a = 0
    · rw [if_pos h, if_pos (hiff.mp h).1, if_pos (hiff.mp h).2, pow_succ]
      ring
    · rw [if_neg h]
      rcases not_and_or.mp (fun hc => h (hiff.mpr hc)) with h1 | h1 <;>
        rw [if_neg h1] <;> ring

theorem hadamard_init (m : ℕ) :
    hadamardW (initAmp m) =
      fun y => chi (bdot y (Fin.snoc (fun _ => (0 : ZMod 2)) 1)) := by
  funext y
  unfold hadamardW initAmp
  rw [Finset.sum_congr rfl (fun z _ => by rw [mul_ite, mul_one, mul_zero])]
  exact Fintype.sum_ite_eq' (Fin.snoc (fun _ => (0 : ZMod 2)) 1)
    (fun z => chi (bdot y z))

theorem bdot_snoc_zero_one {m : ℕ} (w : Fin (m + 1) → ZMod 2) :
    bdot w (Fin.snoc (fun _ => (0 : ZMod 2)) 1) = w (Fin.last m) := by
  unfold bdot
  rw [Fin.sum_univ_castSucc]
  simp [Fin.snoc_castSucc, Fin.snoc_last]

theorem bdot_snoc_left {m : ℕ} (c : Fin m → ZMod 2)
    (y : Fin (m + 1) → ZMod 2) :
    bdot (Fin.snoc c 1) y =
      (∑ i : Fin m, c i * y i.castSucc) + y (Fin.last m) := by
  unfold bdot
  rw [Fin.sum_univ_castSucc]
  simp [Fin.snoc_castSucc, Fin.snoc_last]

theorem oracle_step {m : ℕ} (c : Fin m → ZMod 2) (y : Fin (m + 1) → ZMod 2) :
    bdot (bvFlip c y) (Fin.snoc (fun _ => (0 : ZMod 2)) 1) =
      bdot (Fin.snoc c 1) y := by
  rw [bdot_snoc_zero_one, bdot_snoc_left]
  unfold bvFlip
  rw [Function.update_same]
  ring

theorem finalAmp_eq (m : ℕ) (c : Fin m → ZMod 2) (x : Fin (m + 1) → ZMod 2) :
    finalAmp m c x = if x = Fin.snoc c 1 then 2 ^ (m + 1) else 0 := by
  unfold finalAmp oracleAmp
  rw [hadamard_init]
  unfold hadamardW
  have hzz : ∀ u v : ZMod 2, u + v = 0 ↔ u = v := by decide
  calc (∑ y, chi (bdot x y) *
        chi (bdot (bvFlip c y) (Fin.snoc (fun _ => (0 : ZMod 2)) 1)))
      = ∑ y, chi (bdot x y) * chi (bdot (Fin.snoc c 1) y) := by
        simp_rw [oracle_step]
    _ = ∑ y, chi (bdot (x + Fin.snoc c 1) y) := by
        refine Finset.sum_congr rfl (fun y _ => ?_)
        rw [bdot_add_left, chi_add]
    _ = if x + Fin.snoc c 1 = 0 then 2 ^ (m + 1) else 0 := by
        have h := sum_chi_bdot (x + Fin.snoc c 1)
        exact h
    _ = if x = Fin.snoc c 1 then 2 ^ (m + 1) else 0 := by
        have hiff : (x + Fin.snoc c 1 = 0) ↔ (x = Fin.snoc c 1) := by
          constructor
          · intro h
            funext i
            exact (hzz _ _).mp (congrFun h i)
          · intro h
            subst h
            funext i
            exact (hzz _ _).mpr rfl
        simp only [hiff]

/-- C1: for every qubit count nbits = m + 1 of at least 2 and every secret
tuple produced by make_c(nbits - 1), after run_experiment's sequence
(initial state zeros(m) kron ones(1), Hadamard on all qubits, the oracle
of make_u, Hadamard on all qubits), every basis configuration whose
probability under the final state exceeds 0.1 has its first m bits equal
to the secret: the assertion in check_result never fails.  In fact the
final amplitude vector is supported on the single configuration
(secret, 1). -/
theorem bernstein_identifies_secret (m : ℕ) (hm : 1 ≤ m)
    (draws : Fin m → Bool) : checkResultHolds m (make_c m draws) := by
  intro x hx i
  by_cases hxs : x = Fin.snoc (make_c m draws) 1
  · rw [hxs, Fin.snoc_castSucc]
  · exfalso
    unfold probOf at hx
    rw [finalAmp_eq, if_neg hxs] at hx
    norm_num at hx

/-- C1 witness: the two-qubit experiment with an all-false draw stream. -/
theorem bernstein_identifies_secret_witness :
    1 ≤ 1 ∧ checkResultHolds 1 (make_c 1 (fun _ => false)) :=
  ⟨le_refl 1, bernstein_identifies_secret 1 (le_refl 1) (fun _ => false)⟩

/-- C2 counterexample: for nbits = 1 the loop of make_c writes no index at
all, so no sequence of random draws can produce the 1-bit tuple (1): the
last bit of the returned tuple is never 1. -/
theorem make_c_cannot_set_last_bit :
    ¬ ∃ draws : Fin 1 → Bool, make_c 1 draws = fun _ => 1 := by
  decide

/-- C2 (amended): make_c(nbits) returns a tuple of nbits bits whose first
nbits - 1 entries are the independent Bernoulli(0.5) draws and whose last
entry is always 0; consequently exactly the tuples with last bit 0 are
reachable, each under the draw sequence that reads off its first
nbits - 1 bits. -/
theorem make_c_last_zero_rest_reachable (k : ℕ) :
    (∀ draws : Fin (k + 1) → Bool, make_c (k + 1) draws (Fin.last k) = 0) ∧
    (∀ t : Fin (k + 1) → ZMod 2, t (Fin.last k) = 0 →
      ∃ draws : Fin (k + 1) → Bool, make_c (k + 1) draws = t) := by
  constructor
  · intro draws
    unfold make_c
    rw [if_neg]
    simp [Fin.val_last]
  · intro t ht
    refine ⟨fun i => decide (t i = 1), ?_⟩
    funext i
    unfold make_c
    by_cases hi : i.val < (k + 1) - 1
    · rw [if_pos hi]
      have h2 : t i = 0 ∨ t i = 1 := by
        have hz : ∀ z : ZMod 2, z = 0 ∨ z = 1 := by decide
        exact hz (t i)
      rcases h2 with h | h <;> simp [h]
    · rw [if_neg hi]
      have hlast : i = Fin.last k := by
        apply Fin.ext
        rw [Fin.val_last]
        omega
      rw [hlast, ht]

/-- C2 witness for the amended claim: the all-zero 1-bit tuple has last
bit 0 and is reachable from some draw sequence. -/
theorem make_c_last_zero_witness :
    ((fun _ => (0 : ZMod 2)) : Fin 1 → ZMod 2) (Fin.last 0) = 0 ∧
    ∃ draws : Fin 1 → Bool, make_c 1 draws = fun _ => (0 : ZMod 2) :=
  ⟨rfl, (make_c_last_zero_rest_reachable 0).2 (fun _ => 0) rfl⟩

/-! Exact unitarity: helper lemmas for the oracle construction (C3) and
for closure under products (C6). -/

theorem sum_mul_indicator (N : ℕ) (g : ℕ → ℚ) (m : ℕ) :
    (∑ k ∈ Finset.range N, g k * (if k = m then 1 else 0)) =
      if m < N then g m else 0 := by
  rw [Finset.sum_congr rfl (fun k _ => by rw [mul_ite, mul_one, mul_zero])]
  rw [Finset.sum_ite_eq' (Finset.range N) m g]
  simp [Finset.mem_range]

theorem sum_indicator_mul_indicator (N m1 m2 : ℕ) (h1 : m1 < N) :
    (∑ k ∈ Finset.range N,
        (if k = m1 then (1 : ℚ) else 0) * (if k = m2 then 1 else 0)) =
      if m1 = m2 then 1 else 0 := by
  rw [sum_mul_indicator]
  by_cases h2 : m2 < N
  · rw [if_pos h2]
    by_cases h : m2 = m1
    · simp [h]
    · rw [if_neg h, if_neg (fun hh => h hh.symm)]
  · rw [if_neg h2, if_neg (by omega : ¬ m1 = m2)]

theorem exactUnitary_is_unitary {a : Tensor} (h : a.ExactUnitary) :
    a.is_unitary = some true := by
  obtain ⟨hsq, hu⟩ := h
  unfold Tensor.is_unitary Tensor.matmul Tensor.is_close Tensor.conjT Tensor.eye
  dsimp only
  rw [if_pos rfl]
  dsimp only [Option.bind]
  rw [if_pos (And.intro hsq.symm hsq.symm)]
  refine congrArg some (decide_eq_true ?_)
  intro i hi j hj
  rw [hu i hi j hj]
  rw [sub_self, abs_zero]
  have hr : (0 : ℚ) ≤ rtol * |if i = j then (1 : ℚ) else 0| :=
    mul_nonneg (by norm_num [rtol]) (abs_nonneg _)
  have ha : (0 : ℚ) < atol := by norm_num [atol]
  linarith

theorem permOn_exactUnitary {N : ℕ} {f : ℕ → ℕ} {t : Tensor}
    (h : Tensor.IsPermOn N f t) : t.ExactUnitary := by
  obtain ⟨hr, hc, hmap, hinj, hent⟩ := h
  refine ⟨by rw [hr, hc], ?_⟩
  intro i hi j hj
  rw [hc] at hi hj
  rw [hr]
  calc (∑ k ∈ Finset.range N, t.entry k i * t.entry k j)
      = ∑ k ∈ Finset.range N,
          (if k = f i then (1 : ℚ) else 0) * (if k = f j then 1 else 0) := by
        refine Finset.sum_congr rfl (fun k hk => ?_)
        rw [hent k (Finset.mem_range.mp hk) i hi, hent k (Finset.mem_range.mp hk) j hj]
    _ = if f i = f j then 1 else 0 :=
        sum_indicator_mul_indicator N (f i) (f j) (hmap i hi)
    _ = if i = j then 1 else 0 := by
        by_cases hij : i = j
        · simp [hij]
        · rw [if_neg hij, if_neg (fun hee => hij (hinj i hi j hj hee))]

theorem permOn_matmul {N : ℕ} {f g : ℕ → ℕ} {s t : Tensor}
    (hs : Tensor.IsPermOn N f s) (ht : Tensor.IsPermOn N g t) :
    ∃ u, Tensor.matmul s t = some u ∧
      Tensor.IsPermOn N (fun x => f (g x)) u := by
  obtain ⟨hsr, hsc, hsmap, hsinj, hsent⟩ := hs
  obtain ⟨htr, htc, htmap, htinj, htent⟩ := ht
  have hcond : s.cols = t.rows := by rw [hsc, htr]
  refine ⟨⟨s.rows, t.cols,
      fun i j => ∑ k ∈ Finset.range s.cols, s.entry i k * t.entry k j⟩,
    ?_, hsr, htc, fun x hx => hsmap _ (htmap x hx), ?_, ?_⟩
  · unfold Tensor.matmul
    rw [if_pos hcond]
  · intro x hx y hy hxy
    exact htinj x hx y hy (hsinj _ (htmap x hx) _ (htmap y hy) hxy)
  · intro r hr c hc
    show (∑ k ∈ Finset.range s.cols, s.entry r k * t.entry k c) = _
    rw [hsc]
    calc (∑ k ∈ Finset.range N, s.entry r k * t.entry k c)
        = ∑ k ∈ Finset.range N, s.entry r k * (if k = g c then 1 else 0) := by
          refine Finset.sum_congr rfl (fun k hk => ?_)
          rw [htent k (Finset.mem_range.mp hk) c hc]
      _ = if g c < N then s.entry r (g c) else 0 :=
          sum_mul_indicator N (fun k => s.entry r k) (g c)
      _ = s.entry r (g c) := by rw [if_pos (htmap c hc)]
      _ = if r = f (g c) then 1 else 0 := hsent r hr (g c) (htmap c hc)

theorem eye_permOn (N : ℕ) : Tensor.IsPermOn N (fun x => x) (Tensor.eye N) :=
  ⟨rfl, rfl, fun _ hx => hx, fun _ _ _ _ h => h, fun _ _ _ _ => rfl⟩

theorem cnotPerm_involutive {n i : ℕ} (hi : i < n - 1) (x : ℕ) :
    cnotPerm n i (cnotPerm n i x) = x := by
  have hp : n - 1 - i ≠ 0 := by omega
  have h1 : (1 : ℕ).testBit (n - 1 - i) = false := by
    rw [show (1 : ℕ) = 2 ^ 0 from rfl, Nat.testBit_two_pow]
    exact decide_eq_false (fun h => hp h.symm)
  unfold cnotPerm
  by_cases hb : x.testBit (n - 1 - i)
  · rw [if_pos hb]
    have hb2 : (x ^^^ 1).testBit (n - 1 - i) = true := by
      rw [Nat.testBit_xor, h1, hb]
      rfl
    rw [if_pos hb2, Nat.xor_assoc, Nat.xor_self, Nat.xor_zero]
  · rw [if_neg hb, if_neg hb]

theorem cnotFull_permOn {n i : ℕ} (hi : i < n - 1) :
    Tensor.IsPermOn (2 ^ n) (cnotPerm n i) (cnotFull n i) := by
  refine ⟨rfl, rfl, ?_, ?_, fun r _ c _ => rfl⟩
  · intro x hx
    unfold cnotPerm
    by_cases hb : x.testBit (n - 1 - i)
    · rw [if_pos hb]
      have h1n : (1 : ℕ) < 2 ^ n := by
        have h2 : (2 : ℕ) ^ 1 ≤ 2 ^ n := Nat.pow_le_pow_right (by norm_num) (by omega)
        omega
      exact Nat.xor_lt_two_pow hx h1n
    · rw [if_neg hb]
      exact hx
  · intro x _ y _ hxy
    have h2 := congrArg (cnotPerm n i) hxy
    rw [cnotPerm_involutive hi, cnotPerm_involutive hi] at h2
    exact h2

theorem make_u_fold_perm (n : ℕ) (c : ℕ → ZMod 2) :
    ∀ l : List ℕ, (∀ i ∈ l, i < n - 1) → ∀ (t : Tensor) (f : ℕ → ℕ),
      Tensor.IsPermOn (2 ^ n) f t →
      ∃ u g,
        (l.foldl
          (fun acc idx =>
            if c idx = 1 then
              acc.bind (fun op => Tensor.matmul (cnotFull n idx) op)
            else acc)
          (some t)) = some u ∧
        Tensor.IsPermOn (2 ^ n) g u := by
  intro l
  induction l with
  | nil =>
    intro _ t f hperm
    exact ⟨t, f, rfl, hperm⟩
  | cons a l ih =>
    intro hmem t f hperm
    rw [List.foldl_cons]
    by_cases ha : c a = 1
    · rw [if_pos ha]
      obtain ⟨u1, hmm, hperm1⟩ :=
        permOn_matmul (cnotFull_permOn (hmem a (List.mem_cons_self a l))) hperm
      rw [show (some t).bind (fun op => Tensor.matmul (cnotFull n a) op) = some u1
        from hmm]
      exact ih (fun i hi => hmem i (List.mem_cons_of_mem a hi)) u1 _ hperm1
    · rw [if_neg ha]
      exact ih (fun i hi => hmem i (List.mem_cons_of_mem a hi)) t f hperm

/-- C3: for every qubit count of at least 2 and every secret tuple over
{0, 1}, make_u succeeds and its operator passes the tolerance check
is_unitary: the construction yields a permutation matrix, which is exactly
unitary, so the assertion at the end of make_u never fires. -/
theorem make_u_is_unitary (n : ℕ) (hn : 2 ≤ n) (c : ℕ → ZMod 2) :
    ∃ u, make_u n c = some u ∧ u.is_unitary = some true := by
  obtain ⟨u, g, hfold, hperm⟩ :=
    make_u_fold_perm n c (List.range (n - 1)) (fun i hi => List.mem_range.mp hi)
      (Tensor.eye (2 ^ n)) (fun x => x) (eye_permOn (2 ^ n))
  refine ⟨u, ?_, exactUnitary_is_unitary (permOn_exactUnitary hperm)⟩
  unfold make_u
  exact hfold

/-- C3 witness: the 2-qubit oracle for the secret (1) is built and passes
is_unitary. -/
theorem make_u_is_unitary_witness :
    2 ≤ 2 ∧ ∃ u, make_u 2 (fun _ => 1) = some u ∧ u.is_unitary = some true :=
  ⟨by omega, make_u_is_unitary 2 (by omega) (fun _ => 1)⟩

theorem sum_mul_indicator2 (N : ℕ) (g : ℕ → ℚ) (m : ℕ) :
    (∑ k ∈ Finset.range N, g k * (if m = k then 1 else 0)) =
      if m < N then g m else 0 := by
  rw [Finset.sum_congr rfl (fun k _ => by rw [mul_ite, mul_one, mul_zero])]
  rw [Finset.sum_ite_eq (Finset.range N) m g]
  simp [Finset.mem_range]

theorem exactUnitary_matmul {u v : Tensor} (hu : u.ExactUnitary)
    (hv : v.ExactUnitary) (hd : u.rows = v.rows) :
    ∃ w, Tensor.matmul u v = some w ∧ w.ExactUnitary := by
  obtain ⟨hus, huu⟩ := hu
  obtain ⟨hvs, hvu⟩ := hv
  have hcond : u.cols = v.rows := by rw [← hus, hd]
  refine ⟨⟨u.rows, v.cols,
      fun i j => ∑ k ∈ Finset.range u.cols, u.entry i k * v.entry k j⟩,
    ?_, ?_, ?_⟩
  · unfold Tensor.matmul
    rw [if_pos hcond]
  · show u.rows = v.cols
    rw [hd, hvs]
  · intro i hi j hj
    show (∑ k ∈ Finset.range u.rows,
        (∑ s ∈ Finset.range u.cols, u.entry k s * v.entry s i) *
        (∑ t ∈ Finset.range u.cols, u.entry k t * v.entry t j)) =
      if i = j then 1 else 0
    calc (∑ k ∈ Finset.range u.rows,
        (∑ s ∈ Finset.range u.cols, u.entry k s * v.entry s i) *
        (∑ t ∈ Finset.range u.cols, u.entry k t * v.entry t j))
        = ∑ k ∈ Finset.range u.rows, ∑ s ∈ Finset.range u.cols,
            ∑ t ∈ Finset.range u.cols,
              (u.entry k s * v.entry s i) * (u.entry k t * v.entry t j) := by
          refine Finset.sum_congr rfl (fun k _ => ?_)
          rw [Finset.sum_mul_sum]
      _ = ∑ s ∈ Finset.range u.cols, ∑ k ∈ Finset.range u.rows,
            ∑ t ∈ Finset.range u.cols,
              (u.entry k s * v.entry s i) * (u.entry k t * v.entry t j) :=
          Finset.sum_comm
      _ = ∑ s ∈ Finset.range u.cols, ∑ t ∈ Finset.range u.cols,
            ∑ k ∈ Finset.range u.rows,
              (u.entry k s * v.entry s i) * (u.entry k t * v.entry t j) :=
          Finset.sum_congr rfl (fun s _ => Finset.sum_comm)
      _ = ∑ s ∈ Finset.range u.cols, ∑ t ∈ Finset.range u.cols,
            (v.entry s i * v.entry t j) *
              ∑ k ∈ Finset.range u.rows, u.entry k s * u.entry k t := by
          refine Finset.sum_congr rfl
            (fun s _ => Finset.sum_congr rfl (fun t _ => ?_))
          rw [Finset.mul_sum]
          refine Finset.sum_congr rfl (fun k _ => ?_)
          ring
      _ = ∑ s ∈ Finset.range u.cols, ∑ t ∈ Finset.range u.cols,
            (v.entry s i * v.entry t j) * (if s = t then 1 else 0) := by
          refine Finset.sum_congr rfl
            (fun s hs => Finset.sum_congr rfl (fun t ht => ?_))
          rw [huu s (Finset.mem_range.mp hs) t (Finset.mem_range.mp ht)]
      _ = ∑ s ∈ Finset.range u.cols, v.entry s i * v.entry s j := by
          refine Finset.sum_congr rfl (fun s hs => ?_)
          rw [sum_mul_indicator2 u.cols (fun t => v.entry s i * v.entry t j) s,
            if_pos (Finset.mem_range.mp hs)]
      _ = ∑ s ∈ Finset.range v.rows, v.entry s i * v.entry s j := by
          rw [hcond]
      _ = if i = j then 1 else 0 := hvu i hi j hj

theorem sum_range_mul_split (m n : ℕ) (f : ℕ → ℚ) :
    (∑ k ∈ Finset.range (m * n), f k) =
      ∑ p ∈ Finset.range m, ∑ q ∈ Finset.range n, f (n * p + q) := by
  rcases Nat.eq_zero_or_pos n with hn | hn
  · subst hn
    simp
  · rw [← Finset.sum_product']
    refine Finset.sum_nbij' (fun k => (k / n, k % n)) (fun p => n * p.1 + p.2)
      ?_ ?_ ?_ ?_ ?_
    · intro k hk
      rw [Finset.mem_range] at hk
      rw [Finset.mem_product, Finset.mem_range, Finset.mem_range]
      exact ⟨(Nat.div_lt_iff_lt_mul hn).mpr hk, Nat.mod_lt k hn⟩
    · intro p hp
      rw [Finset.mem_product, Finset.mem_range, Finset.mem_range] at hp
      rw [Finset.mem_range]
      calc n * p.1 + p.2 < n * p.1 + n := by omega
        _ = n * (p.1 + 1) := by ring
        _ ≤ n * m := Nat.mul_le_mul_left n hp.1
        _ = m * n := Nat.mul_comm n m
    · intro k _
      exact Nat.div_add_mod k n
    · intro p hp
      rw [Finset.mem_product, Finset.mem_range, Finset.mem_range] at hp
      have h1 : (n * p.1 + p.2) / n = p.1 := by
        rw [Nat.mul_add_div hn, Nat.div_eq_of_lt hp.2, Nat.add_zero]
      have h2 : (n * p.1 + p.2) % n = p.2 := by
        rw [Nat.mul_add_mod, Nat.mod_eq_of_lt hp.2]
      show ((n * p.1 + p.2) / n, (n * p.1 + p.2) % n) = p
      rw [h1, h2]
    · intro k _
      rw [Nat.div_add_mod]

theorem exactUnitary_kron {u v : Tensor} (hu : u.ExactUnitary)
    (hv : v.ExactUnitary) : (Tensor.kron u v).ExactUnitary := by
  obtain ⟨hus, huu⟩ := hu
  obtain ⟨hvs, hvu⟩ := hv
  constructor
  · show u.rows * v.rows = u.cols * v.cols
    rw [hus, hvs]
  · intro i hi j hj
    replace hi : i < u.cols * v.cols := hi
    replace hj : j < u.cols * v.cols := hj
    rcases Nat.eq_zero_or_pos v.cols with hvc | hvc
    · rw [hvc, Nat.mul_zero] at hi
      omega
    · have hvr : 0 < v.rows := by
        rw [hvs]
        exact hvc
      have hdivi : i / v.cols < u.cols := (Nat.div_lt_iff_lt_mul hvc).mpr hi
      have hdivj : j / v.cols < u.cols := (Nat.div_lt_iff_lt_mul hvc).mpr hj
      show (∑ k ∈ Finset.range (u.rows * v.rows),
          (u.entry (k / v.rows) (i / v.cols) * v.entry (k % v.rows) (i % v.cols)) *
          (u.entry (k / v.rows) (j / v.cols) * v.entry (k % v.rows) (j % v.cols))) =
        if i = j then 1 else 0
      rw [sum_range_mul_split]
      calc (∑ p ∈ Finset.range u.rows, ∑ q ∈ Finset.range v.rows,
          (u.entry ((v.rows * p + q) / v.rows) (i / v.cols) *
            v.entry ((v.rows * p + q) % v.rows) (i % v.cols)) *
          (u.entry ((v.rows * p + q) / v.rows) (j / v.cols) *
            v.entry ((v.rows * p + q) % v.rows) (j % v.cols)))
          = ∑ p ∈ Finset.range u.rows, ∑ q ∈ Finset.range v.rows,
              (u.entry p (i / v.cols) * v.entry q (i % v.cols)) *
              (u.entry p (j / v.cols) * v.entry q (j % v.cols)) := by
            refine Finset.sum_congr rfl
              (fun p _ => Finset.sum_congr rfl (fun q hq => ?_))
            rw [Nat.mul_add_div hvr, Nat.div_eq_of_lt (Finset.mem_range.mp hq),
              Nat.add_zero, Nat.mul_add_mod, Nat.mod_eq_of_lt (Finset.mem_range.mp hq)]
        _ = ∑ p ∈ Finset.range u.rows,
              (u.entry p (i / v.cols) * u.entry p (j / v.cols)) *
                ∑ q ∈ Finset.range v.rows,
                  v.entry q (i % v.cols) * v.entry q (j % v.cols) := by
            refine Finset.sum_congr rfl (fun p _ => ?_)
            rw [Finset.mul_sum]
            refine Finset.sum_congr rfl (fun q _ => ?_)
            ring
        _ = ∑ p ∈ Finset.range u.rows,
              (u.entry p (i / v.cols) * u.entry p (j / v.cols)) *
                (if i % v.cols = j % v.cols then 1 else 0) := by
            refine Finset.sum_congr rfl (fun p _ => ?_)
            rw [hvu (i % v.cols) (Nat.mod_lt i hvc) (j % v.cols) (Nat.mod_lt j hvc)]
        _ = (∑ p ∈ Finset.range u.rows,
              u.entry p (i / v.cols) * u.entry p (j / v.cols)) *
                (if i % v.cols = j % v.cols then 1 else 0) := by
            rw [Finset.sum_mul]
        _ = (if i / v.cols = j / v.cols then 1 else 0) *
              (if i % v.cols = j % v.cols then 1 else 0) := by
            rw [huu (i / v.cols) hdivi (j / v.cols) hdivj]
        _ = if i = j then 1 else 0 := by
            by_cases hij : i = j
            · rw [hij]
              simp
            · have hne : ¬(i / v.cols = j / v.cols ∧ i % v.cols = j % v.cols) := by
                rintro ⟨h1, h2⟩
                exact hij (by
                  rw [← Nat.div_add_mod i v.cols, ← Nat.div_add_mod j v.cols, h1, h2])
              rw [if_neg hij]
              rcases not_and_or.mp hne with h | h <;> rw [if_neg h] <;> ring

/-- C6 (amended): the tolerance-level check is_unitary is not closed under
products (see the counterexample), but exact unitarity is, and it implies
the tolerance check: for exactly unitary Tensors u and v of equal matrix
dimensions, matmul(u, v) succeeds and satisfies is_unitary, and kron(u, v)
satisfies is_unitary. -/
theorem exact_unitary_closed_under_products (u v : Tensor)
    (hu : u.ExactUnitary) (hv : v.ExactUnitary) (hd : u.rows = v.rows) :
    (∃ w, Tensor.matmul u v = some w ∧ w.is_unitary = some true) ∧
    (Tensor.kron u v).is_unitary = some true := by
  obtain ⟨w, hw, hwu⟩ := exactUnitary_matmul hu hv hd
  exact ⟨⟨w, hw, exactUnitary_is_unitary hwu⟩,
    exactUnitary_is_unitary (exactUnitary_kron hu hv)⟩

unseal Rat.add Rat.mul Rat.inv Rat.sub Rat.ofScientific in
/-- C6 witness for the amended claim: both closure statements at the
1-by-1 identity. -/
theorem exact_unitary_closed_witness :
    (Tensor.eye 1).ExactUnitary ∧ (Tensor.eye 1).rows = (Tensor.eye 1).rows ∧
    ((∃ w, Tensor.matmul (Tensor.eye 1) (Tensor.eye 1) = some w ∧
        w.is_unitary = some true) ∧
      (Tensor.kron (Tensor.eye 1) (Tensor.eye 1)).is_unitary = some true) :=
  ⟨by unfold Tensor.ExactUnitary; decide, rfl,
    exact_unitary_closed_under_products (Tensor.eye 1) (Tensor.eye 1)
      (by unfold Tensor.ExactUnitary; decide)
      (by unfold Tensor.ExactUnitary; decide) rfl⟩

unseal Rat.add Rat.mul Rat.inv Rat.sub Rat.ofScientific in
/-- C6 counterexample: the 1-by-1 tensor with entry 1 + 5e-6 passes the
tolerance check is_unitary, but its matrix square and its Kronecker square
both fail it: the tolerance version of unitarity is not closed under
either product. -/
theorem unitary_tolerance_closure_fails :
    uEx.is_unitary = some true ∧
    (Tensor.matmul uEx uEx).bind Tensor.is_unitary = some false ∧
    (Tensor.kron uEx uEx).is_unitary = some false := by
  decide

end Qcc
